import Mathlib

/-!
The watchdog `terminal-keepalive`

A shallow embedding of `src/orchestrator/scripts/terminal-keepalive.c`.

The program parses an optional timeout, resets the disposition of `SIGALRM`,
lowers its CPU and I/O priority and then loops: arm `alarm(timeout)`, block in
`read(0, &c, 1)`, repeat while the read returns 1.  It returns 1 when the read
returns anything else.

The embedding has three layers.

* C integer arithmetic: `int` and `unsigned int` are 32 bits wide, `long` is
  64 bits wide (Linux LP64; the program uses the Linux-only `ioprio_set`).
  Results that do not fit are reduced modulo `2 ^ 32`, as gcc does.
* The C library and kernel services that the program calls (`atoi`, `signal`,
  `alarm`, `read`) follow their manual pages: `atoi` is `(int) strtol(s, NULL, 10)`,
  `alarm(s)` replaces the pending alarm and `alarm(0)` only cancels it, and the
  default action of `SIGALRM` terminates the process unless the signal is
  blocked.  The disposition of `SIGALRM`, the signal mask and a pending alarm
  are inherited through `execve`; `main` resets the disposition and never
  touches the mask.
* `main` is a small-step machine over a process state `Proc`, driven by an
  environment `Env` that fixes what the operating system answers.  Time is
  counted in whole seconds and passes only while the process is blocked in
  `read`.  When an alarm expires in the very second in which data arrives, the
  machine delivers the alarm first; the statements about deadlines below take
  arrivals strictly before or strictly after the deadline, so they do not
  depend on that choice.
-/

namespace TerminalKeepalive

/-! ## C integers -/

/-- The value of a mathematical integer once stored in a 32-bit `int` (reduction into
`[-2 ^ 31, 2 ^ 31)` modulo `2 ^ 32`). -/
def toInt (v : Int) : Int := (v + 2147483648) % 4294967296 - 2147483648

/-- The value of an integer once converted to `unsigned int` (reduction modulo
`2 ^ 32`). -/
def toUnsigned (v : Int) : Nat := (v % 4294967296).toNat

/-- Largest `long` (64 bits). -/
def LONG_MAX : Int := 9223372036854775807

/-- Smallest `long` (64 bits). -/
def LONG_MIN : Int := -9223372036854775808

/-- Left shift on `int` operands; the result is reduced to 32 bits. -/
def shl (a : Int) (k : Nat) : Int := toInt (a * 2 ^ k)

/-! ## The I/O priority constants (lines 8-13) -/

/-- The constant of line 9: `#define IOPRIO_WHO_PROCESS 1`. -/
def IOPRIO_WHO_PROCESS : Int := 1

/-- The constant of line 10: `#define IOPRIO_CLASS_IDLE 3`. -/
def IOPRIO_CLASS_IDLE : Int := 3

/-- The constant of line 11: `#define _IOPRIO_CLASS_SHIFT 13`. -/
def _IOPRIO_CLASS_SHIFT : Nat := 13

/-- The constant of line 12: `#define _IOPRIO_PRIO_MASK ((1 << _IOPRIO_CLASS_SHIFT) - 1)`. -/
def _IOPRIO_PRIO_MASK : Int := shl 1 _IOPRIO_CLASS_SHIFT - 1

/-- Line 13: `#define IOPRIO_PRIO_VALUE(cls, dat)
(((cls) << _IOPRIO_CLASS_SHIFT) | ((dat) & _IOPRIO_PRIO_MASK))`, on `int` operands, the type
of the operands `main` passes and of the mask. -/
def IOPRIO_PRIO_VALUE (cls dat : Int) : Int :=
  Int.lor (shl cls _IOPRIO_CLASS_SHIFT) (Int.land dat _IOPRIO_PRIO_MASK)

/-! ## The library function `atoi` and line 20 -/

/-- The library function `isspace` in the C locale: space, and the control characters 9 to 13. -/
def isspace (c : Char) : Bool := c.toNat = 32 || (9 ≤ c.toNat && c.toNat ≤ 13)

/-- The library function `isdigit`: the characters `0` to `9`. -/
def isdigit (c : Char) : Bool := 48 ≤ c.toNat && c.toNat ≤ 57

/-- The numeric value of a digit character. -/
def digitVal (c : Char) : Nat := c.toNat - 48

/-- Drop the leading white space of a C string. -/
def skipSpace : List Char → List Char
  | [] => []
  | c :: cs => if isspace c then skipSpace cs else c :: cs

/-- Accumulate the leading decimal digits of a C string; conversion stops at
the first character that is not a digit (the end of the list stands for the
terminating NUL). -/
def readDigits : Nat → List Char → Nat
  | acc, [] => acc
  | acc, c :: cs => if isdigit c then readDigits (acc * 10 + digitVal c) cs else acc

/-- The library function `strtol(s, NULL, 10)`: optional white space, an optional sign, then
decimal digits; no digits give 0; a value outside `long` is clamped to `LONG_MIN` or
`LONG_MAX`. -/
def strtol10 (s : List Char) : Int :=
  match skipSpace s with
  | [] => 0
  | c :: cs =>
    if c = '-' then max LONG_MIN (-(readDigits 0 cs : Int))
    else if c = '+' then min LONG_MAX (readDigits 0 cs : Int)
    else min LONG_MAX (readDigits 0 (c :: cs) : Int)

/-- The library function `atoi(s)`, which is `(int) strtol(s, NULL, 10)`.  ISO C defines the
result only when the value fits in an `int`; beyond that this is what glibc computes on
LP64. -/
def atoi (s : List Char) : Int := toInt (strtol10 s)

/-- Line 20 of `main`, the value stored in `timeout`:
`timeout = (argc >= 2 ? atoi(argv[1]) : 120);` with `timeout` an
`unsigned int`.  `argc` is the length of `argv`. -/
def parseTimeout (argv : List (List Char)) : Nat :=
  toUnsigned (if 2 ≤ argv.length then atoi (argv.getD 1 []) else 120)

/-- The decimal text of a natural number, as a C string. -/
def decimal (n : Nat) : List Char := (Nat.repr n).toList

/-- An argument is non-numeric when, after optional white space and one
optional sign, it does not continue with a decimal digit. -/
def nonNumeric (s : List Char) : Bool :=
  match skipSpace s with
  | [] => true
  | c :: cs =>
    if c = '-' ∨ c = '+' then
      (match cs with
       | [] => true
       | d :: _ => !isdigit d)
    else !isdigit c

/-! ## The process, the operating system and `main` -/

/-- The number of `SIGALRM` on Linux. -/
def SIGALRM : Nat := 14

/-- Dispositions of a signal that a program can inherit through `execve` or
set with `SIG_DFL`: the default action (for `SIGALRM`: terminate the process)
or ignoring the signal. -/
inductive Disposition
  | dfl
  | ign
  deriving DecidableEq, Repr

/-- System and library calls a process can make, with their arguments; calls
whose result comes from the operating system carry that result. -/
inductive Effect
  | signal (sig : Nat) (disp : Disposition)
  | nice (inc : Int) (ret : Int)
  | ioprio_set (which who ioprio : Int) (ret : Int)
  | alarm (seconds : Nat)
  | read (fd : Nat) (count : Nat) (ret : Int)
  | write (fd : Nat) (count : Nat) (ret : Int)
  deriving DecidableEq, Repr

/-- The statement `main` executes next: lines 23, 26, 28, 32, 35 (the call
of `read`, in which the process blocks) and 37. -/
inductive Pc
  | sig
  | nice
  | ioprio
  | alarm
  | read
  | ret
  deriving DecidableEq, Repr

/-- Whether the process still runs, has returned from `main`, or was
terminated by a signal. -/
inductive Status
  | running
  | exited (code : Int)
  | killed (sig : Nat)
  deriving DecidableEq, Repr

/-- What the operating system answers during one run: the disposition of
`SIGALRM` inherited at start, whether `SIGALRM` is blocked in the inherited
signal mask (`main` never changes the mask), the alarm inherited through
`execve` (`some r` for an alarm that expires `r + 1` seconds after the start:
a pending alarm has time left), the results of `nice` and of `ioprio_set`,
and standard input.  `stdin k` describes the `k`-th call of `read(0, &c, 1)`:
`some (t, r)` when it can complete from second `t` on with result `r` (1 for a
byte, 0 for end of stream, negative for an error), `none` when it never
completes (no more data, stream still open). -/
structure Env where
  inherited : Disposition
  blocked : Bool
  inheritedAlarm : Option Nat
  niceRet : Int
  ioprioRet : Int
  stdin : Nat → Option (Nat × Int)

/-- The state of the process: `timeout` is the C variable; `disp` the
disposition of `SIGALRM`; `now` the clock in seconds; `pending` the second at
which the pending alarm, if any, expires; `nread` the number of completed
reads; `trace` the calls completed so far, oldest first. -/
structure Proc where
  status : Status
  pc : Pc
  timeout : Nat
  disp : Disposition
  now : Nat
  pending : Option Nat
  nread : Nat
  trace : List Effect
  deriving DecidableEq, Repr

/-- The pending alarm has expired. -/
def alarmDue (p : Proc) : Bool :=
  match p.pending with
  | some d => decide (d ≤ p.now)
  | none => false

/-- Expiry of the alarm: the timer is disarmed and `SIGALRM` is generated.  A
blocked signal is held back and never delivered, since `main` never unblocks
it; otherwise the default disposition terminates the process and an ignored
signal is discarded. -/
def deliver (env : Env) (p : Proc) : Proc :=
  if env.blocked then { p with pending := none }
  else
    match p.disp with
    | Disposition.dfl => { p with status := Status.killed SIGALRM, pending := none }
    | Disposition.ign => { p with pending := none }

/-- One statement of `main`.  `alarm(s)` replaces the pending alarm by one
that expires `s` seconds from now, and `alarm(0)` only cancels it.  A `read`
whose data is not there yet lets one second pass. -/
def exec (env : Env) (p : Proc) : Proc :=
  match p.pc with
  | Pc.sig =>
    { p with disp := Disposition.dfl,
             trace := p.trace ++ [Effect.signal SIGALRM Disposition.dfl],
             pc := Pc.nice }
  | Pc.nice =>
    { p with trace := p.trace ++ [Effect.nice 40 env.niceRet], pc := Pc.ioprio }
  | Pc.ioprio =>
    { p with trace := p.trace ++
               [Effect.ioprio_set IOPRIO_WHO_PROCESS 0
                  (IOPRIO_PRIO_VALUE IOPRIO_CLASS_IDLE 0) env.ioprioRet],
             pc := Pc.alarm }
  | Pc.alarm =>
    { p with pending := if p.timeout = 0 then none else some (p.now + p.timeout),
             trace := p.trace ++ [Effect.alarm p.timeout],
             pc := Pc.read }
  | Pc.read =>
    match env.stdin p.nread with
    | some (t, r) =>
      if t ≤ p.now then
        { p with nread := p.nread + 1,
                 trace := p.trace ++ [Effect.read 0 1 r],
                 pc := if r = 1 then Pc.alarm else Pc.ret }
      else { p with now := p.now + 1 }
    | none => { p with now := p.now + 1 }
  | Pc.ret => { p with status := Status.exited 1 }

/-- One step of the process: an expired alarm is delivered first, otherwise
the next statement runs; a process that has exited or was killed stays as it
is. -/
def step (env : Env) (p : Proc) : Proc :=
  match p.status with
  | Status.running => if alarmDue p then deliver env p else exec env p
  | _ => p

/-- The process after line 20: `timeout` is parsed, nothing else has
happened; the disposition and the pending alarm are the inherited ones. -/
def init (env : Env) (argv : List (List Char)) : Proc :=
  { status := Status.running, pc := Pc.sig, timeout := parseTimeout argv,
    disp := env.inherited, now := 0,
    pending := env.inheritedAlarm.map fun r => r + 1,
    nread := 0, trace := [] }

/-- The state `n` steps after `p`. -/
def runFrom (env : Env) (p : Proc) : Nat → Proc
  | 0 => p
  | n + 1 => step env (runFrom env p n)

/-- The state of `main(argc, argv)` after `n` steps. -/
def main (env : Env) (argv : List (List Char)) (n : Nat) : Proc :=
  runFrom env (init env argv) n

/-! ## Observations on traces -/

/-- The arguments of the `alarm` calls in a trace, in order. -/
def alarmArgs : List Effect → List Nat
  | [] => []
  | Effect.alarm s :: es => s :: alarmArgs es
  | _ :: es => alarmArgs es

/-- Number of `alarm` calls in a trace. -/
def alarmCalls (tr : List Effect) : Nat := (alarmArgs tr).length

/-- A call that produces output. -/
def isOutput : Effect → Bool
  | Effect.write _ _ _ => true
  | _ => false

/-- The same call, with `r` as the recorded result if it is `ioprio_set`. -/
def withIoprioRet (r : Int) : Effect → Effect
  | Effect.ioprio_set which who ioprio _ => Effect.ioprio_set which who ioprio r
  | e => e

/-- Number of `read` calls in a trace that returned 1. -/
def goodReads : List Effect → Nat
  | [] => 0
  | Effect.read _ _ r :: es => if r = 1 then goodReads es + 1 else goodReads es
  | _ :: es => goodReads es

/-- Number of completed `read` calls in a trace. -/
def readCalls : List Effect → Nat
  | [] => 0
  | Effect.read _ _ _ :: es => readCalls es + 1
  | _ :: es => readCalls es

/-- The shape of the loop part of a trace: `alarm`, `read`, `alarm`, `read`,
and so on, starting with an `alarm` and possibly ending with one. -/
def alternates : List Effect → Bool
  | [] => true
  | [Effect.alarm _] => true
  | Effect.alarm _ :: Effect.read _ _ _ :: es => alternates es
  | _ => false

/-- An `alarm(t)` call or a one-byte read of descriptor 0. -/
def isLoopCall (t : Nat) : Effect → Bool
  | Effect.alarm s => decide (s = t)
  | Effect.read fd count _ => decide (fd = 0 ∧ count = 1)
  | _ => false

/-- The three calls `main` makes before its loop. -/
def setupCalls (env : Env) : List Effect :=
  [Effect.signal SIGALRM Disposition.dfl, Effect.nice 40 env.niceRet,
   Effect.ioprio_set 1 0 24576 env.ioprioRet]

/-! ## Inputs and environments -/

/-- Standard input on which byte `k` can be read from second `at k` on. -/
def bytesAt (arrival : Nat → Nat) : Nat → Option (Nat × Int) :=
  fun k => some (arrival k, 1)

/-- Standard input given by a finite list of reads; nothing ever arrives
after them. -/
def finiteInput (l : List (Nat × Int)) : Nat → Option (Nat × Int) :=
  fun k => l.get? k

/-- An environment whose standard input stays open and never delivers anything. -/
def quiet : Env :=
  { inherited := Disposition.ign, blocked := false, inheritedAlarm := none,
    niceRet := 19, ioprioRet := -1, stdin := fun _ => none }

/-- An environment that delivers one byte at seconds 0, 3 and 6 and nothing afterwards; an
alarm that expires at second 2 and an ignored `SIGALRM` are inherited. -/
def demo : Env :=
  { inherited := Disposition.ign, blocked := false, inheritedAlarm := some 1,
    niceRet := 19, ioprioRet := 0,
    stdin := finiteInput [(0, 1), (3, 1), (6, 1)] }

/-- An environment that delivers one byte every three seconds, for ever. -/
def every3 : Env :=
  { inherited := Disposition.dfl, blocked := false, inheritedAlarm := none,
    niceRet := 19, ioprioRet := 0,
    stdin := bytesAt fun k => 3 * k }

/-- An environment that delivers one byte at second 0 and end of stream at second 2. -/
def twoReads : Env :=
  { inherited := Disposition.dfl, blocked := false, inheritedAlarm := none,
    niceRet := 19, ioprioRet := 0,
    stdin := finiteInput [(0, 1), (2, 0)] }

/-! ## Invariants -/

/-- The calls of `k` rounds of the loop in which every read returned 1. -/
def goodLoop (T : Nat) : Nat → List Effect
  | 0 => []
  | k + 1 => Effect.alarm T :: Effect.read 0 1 1 :: goodLoop T k

/-- The trace of a process is determined by its program counter, its timeout and the number
of completed reads. -/
def TraceInv (env : Env) (p : Proc) : Prop :=
  match p.pc with
  | Pc.sig => p.trace = [] ∧ p.nread = 0
  | Pc.nice => p.trace = (setupCalls env).take 1 ∧ p.nread = 0
  | Pc.ioprio => p.trace = (setupCalls env).take 2 ∧ p.nread = 0
  | Pc.alarm => p.trace = setupCalls env ++ goodLoop p.timeout p.nread
  | Pc.read => p.trace = setupCalls env ++ goodLoop p.timeout p.nread ++ [Effect.alarm p.timeout]
  | Pc.ret => ∃ r, r ≠ 1 ∧ 1 ≤ p.nread ∧
      p.trace = setupCalls env ++ goodLoop p.timeout (p.nread - 1)
        ++ [Effect.alarm p.timeout, Effect.read 0 1 r]

/-- What holds in every reachable state: after line 23 the disposition is the default; the
status is running, exited with 1 or killed by `SIGALRM`, and a process that has exited is at
line 37; before and at line 32 the process runs and no alarm is due; before line 32 the clock
is at 0 and nothing was read; once the first `alarm` call is made, a zero timeout leaves no
alarm pending. -/
def GenInv (p : Proc) : Prop :=
  (p.pc ≠ Pc.sig → p.disp = Disposition.dfl) ∧
  (p.status = Status.running ∨ (p.status = Status.exited 1 ∧ p.pc = Pc.ret)
    ∨ p.status = Status.killed SIGALRM) ∧
  (p.pc = Pc.sig ∨ p.pc = Pc.nice ∨ p.pc = Pc.ioprio ∨ p.pc = Pc.alarm →
    p.status = Status.running ∧ alarmDue p = false) ∧
  (p.pc = Pc.sig ∨ p.pc = Pc.nice ∨ p.pc = Pc.ioprio → p.now = 0 ∧ p.nread = 0) ∧
  (p.timeout = 0 → p.pc = Pc.read ∨ p.pc = Pc.ret ∨ (p.pc = Pc.alarm ∧ 0 < p.nread) →
    p.pending = none)

/-- What holds in every reachable state when byte `k` arrives at second `arrival k` and each
byte arrives before the alarm armed after the previous one expires: the process runs, and the
pending alarm expires later than now and later than the next arrival. -/
def KeepInv (arrival : Nat → Nat) (p : Proc) : Prop :=
  p.status = Status.running ∧
  match p.pc with
  | Pc.sig => alarmDue p = false ∧ p.now = 0 ∧ p.nread = 0
  | Pc.nice => alarmDue p = false ∧ p.now = 0 ∧ p.nread = 0
  | Pc.ioprio => alarmDue p = false ∧ p.now = 0 ∧ p.nread = 0
  | Pc.alarm => alarmDue p = false ∧ arrival p.nread < p.now + p.timeout
  | Pc.read => ∃ d, p.pending = some d ∧ p.now < d ∧ arrival p.nread < d
  | Pc.ret => False

/-! ## Decimal text and `atoi` -/

theorem digitChar_isdigit (d : Nat) (h : d < 10) :
    isdigit (Nat.digitChar d) = true ∧ digitVal (Nat.digitChar d) = d := by
  interval_cases d <;> exact ⟨by decide, by decide⟩

theorem toDigitsCore_eq (f : Nat) :
    ∀ m ds, m < f → Nat.toDigitsCore 10 f m ds = Nat.toDigits 10 m ++ ds := by
  induction f using Nat.strong_induction_on with
  | _ f ih =>
    intro m ds hm
    cases f with
    | zero => omega
    | succ f =>
      by_cases h0 : m / 10 = 0
      · simp [Nat.toDigits, Nat.toDigitsCore, h0]
      · have hlt : m / 10 < m := by omega
        have e1 : Nat.toDigitsCore 10 (f + 1) m ds
            = Nat.toDigitsCore 10 f (m / 10) (Nat.digitChar (m % 10) :: ds) := by
          simp [Nat.toDigitsCore, h0]
        have e2 : Nat.toDigits 10 m
            = Nat.toDigitsCore 10 m (m / 10) [Nat.digitChar (m % 10)] := by
          simp [Nat.toDigits, Nat.toDigitsCore, h0]
        rw [e1, e2, ih f (Nat.lt_succ_self f) _ _ (by omega), ih m (by omega) _ _ hlt]
        simp

theorem toDigits_small (n : Nat) (h : n < 10) :
    Nat.toDigits 10 n = [Nat.digitChar n] := by
  have h0 : n / 10 = 0 := by omega
  have h1 : n % 10 = n := by omega
  simp [Nat.toDigits, Nat.toDigitsCore, h0, h1]

theorem toDigits_step (n : Nat) (h : 10 ≤ n) :
    Nat.toDigits 10 n = Nat.toDigits 10 (n / 10) ++ [Nat.digitChar (n % 10)] := by
  have h0 : n / 10 ≠ 0 := by omega
  have e2 : Nat.toDigits 10 n
      = Nat.toDigitsCore 10 n (n / 10) [Nat.digitChar (n % 10)] := by
    simp [Nat.toDigits, Nat.toDigitsCore, h0]
  rw [e2, toDigitsCore_eq n _ _ (by omega)]

theorem readDigits_snoc (l : List Char) (c : Char) :
    ∀ acc, (∀ x ∈ l, isdigit x = true) → isdigit c = true →
      readDigits acc (l ++ [c]) = readDigits acc l * 10 + digitVal c := by
  induction l with
  | nil => intro acc _ hc; simp [readDigits, hc]
  | cons x xs ih =>
    intro acc hl hc
    have hx : isdigit x = true := hl x (by simp)
    simp only [List.cons_append, readDigits, hx, if_true]
    exact ih _ (fun y hy => hl y (by simp [hy])) hc

theorem toDigits_spec (n : Nat) :
    (∀ x ∈ Nat.toDigits 10 n, isdigit x = true) ∧ readDigits 0 (Nat.toDigits 10 n) = n
      ∧ ∃ c cs, Nat.toDigits 10 n = c :: cs ∧ isdigit c = true := by
  induction n using Nat.strong_induction_on with
  | _ n ih =>
    by_cases h : n < 10
    · obtain ⟨hd, hv⟩ := digitChar_isdigit n h
      rw [toDigits_small n h]
      refine ⟨by simpa using hd, by simp [readDigits, hd, hv], _, _, rfl, hd⟩
    · have h10 : 10 ≤ n := by omega
      obtain ⟨hall, hval, c, cs, hcs, hc⟩ := ih (n / 10) (by omega)
      obtain ⟨hd, hv⟩ := digitChar_isdigit (n % 10) (by omega)
      rw [toDigits_step n h10]
      refine ⟨?_, ?_, c, cs ++ [Nat.digitChar (n % 10)], by simp [hcs], hc⟩
      · intro x hx
        rcases List.mem_append.mp hx with hx | hx
        · exact hall x hx
        · simp at hx; rw [hx]; exact hd
      · rw [readDigits_snoc _ _ _ hall hd, hval, hv]; omega

theorem decimal_spec (n : Nat) :
    readDigits 0 (decimal n) = n ∧ ∃ c cs, decimal n = c :: cs ∧ isdigit c = true := by
  have h := toDigits_spec n
  have e : decimal n = Nat.toDigits 10 n := rfl
  rw [e]; exact ⟨h.2.1, h.2.2⟩

theorem isdigit_not_space (c : Char) (h : isdigit c = true) :
    isspace c = false ∧ c ≠ '-' ∧ c ≠ '+' := by
  simp only [isdigit, Bool.and_eq_true, decide_eq_true_eq] at h
  refine ⟨?_, ?_, ?_⟩
  · simp [isspace]; omega
  · rintro rfl; revert h; decide
  · rintro rfl; revert h; decide

theorem strtol10_decimal (n : Nat) : strtol10 (decimal n) = min LONG_MAX (n : Int) := by
  obtain ⟨hv, c, cs, hcs, hc⟩ := decimal_spec n
  obtain ⟨hs, hm, hp⟩ := isdigit_not_space c hc
  rw [hcs] at hv
  simp [strtol10, hcs, skipSpace, hs, hm, hp, hv]

theorem strtol10_neg_decimal (n : Nat) :
    strtol10 ('-' :: decimal n) = max LONG_MIN (-(n : Int)) := by
  obtain ⟨hv, _⟩ := decimal_spec n
  have hs : isspace '-' = false := by decide
  simp [strtol10, skipSpace, hs, hv]

/-! ## The trace of `main` -/

theorem prio_value_idle : IOPRIO_PRIO_VALUE IOPRIO_CLASS_IDLE 0 = 24576 := by decide

theorem goodLoop_snoc (T k : Nat) :
    goodLoop T k ++ [Effect.alarm T, Effect.read 0 1 1] = goodLoop T (k + 1) := by
  induction k with
  | zero => rfl
  | succ k ih => simp only [goodLoop, List.cons_append, ih]

theorem step_of_not_running (env : Env) (p : Proc) (h : p.status ≠ Status.running) :
    step env p = p := by
  unfold step
  cases hs : p.status with
  | running => exact absurd hs h
  | exited c => rfl
  | killed s => rfl

theorem step_exec (env : Env) (p : Proc) (hs : p.status = Status.running)
    (hd : alarmDue p = false) : step env p = exec env p := by
  unfold step; rw [hs]; simp [hd]

theorem step_deliver (env : Env) (p : Proc) (hs : p.status = Status.running)
    (hd : alarmDue p = true) : step env p = deliver env p := by
  unfold step; rw [hs]; simp [hd]

theorem alarmDue_of_none (p : Proc) (h : p.pending = none) : alarmDue p = false := by
  unfold alarmDue; rw [h]

/-- An expired alarm either only disarms the timer or also kills the process. -/
theorem deliver_cases (env : Env) (p : Proc) :
    deliver env p = { p with pending := none } ∨
    deliver env p = { p with status := Status.killed SIGALRM, pending := none } := by
  unfold deliver
  split
  · exact Or.inl rfl
  · split
    · exact Or.inr rfl
    · exact Or.inl rfl

/-- The inherited alarm is never due at second 0. -/
theorem alarmDue_inherited (p : Proc) (o : Option Nat) (h0 : p.now = 0)
    (hp : p.pending = o.map fun r => r + 1) : alarmDue p = false := by
  unfold alarmDue
  rw [hp, h0]
  cases o with
  | none => rfl
  | some r => simp

theorem step_timeout (env : Env) (p : Proc) : (step env p).timeout = p.timeout := by
  unfold step
  cases hs : p.status with
  | running =>
    simp only
    split
    · unfold deliver
      split
      · rfl
      · split <;> rfl
    · unfold exec
      split <;> try rfl
      split
      · split <;> rfl
      · rfl
  | exited c => rfl
  | killed s => rfl

theorem traceInv_step (env : Env) (p : Proc) (h : TraceInv env p) :
    TraceInv env (step env p) := by
  unfold step
  cases hs : p.status with
  | exited c => exact h
  | killed s => exact h
  | running =>
    simp only
    split
    · unfold deliver
      split
      · exact h
      · split <;> exact h
    · unfold exec
      cases hpc : p.pc with
      | sig => simp_all [TraceInv, setupCalls]
      | nice => simp_all [TraceInv, setupCalls]
      | ioprio => simp_all [TraceInv, setupCalls, prio_value_idle, IOPRIO_WHO_PROCESS, goodLoop]
      | alarm => simp_all [TraceInv]
      | read =>
        simp only [TraceInv, hpc] at h
        simp only
        split
        · rename_i t r hst
          split
          · by_cases hr : r = 1
            · subst hr
              simp only [TraceInv, if_true, h, List.append_assoc, List.singleton_append,
                goodLoop_snoc]
            · simp only [TraceInv, hr, if_false]
              exact ⟨r, hr, by omega, by simp [h]⟩
          · simpa [TraceInv, hpc] using h
        · simpa [TraceInv, hpc] using h
      | ret => simpa [TraceInv, hpc] using h

theorem traceInv_main (env : Env) (argv : List (List Char)) (n : Nat) :
    TraceInv env (main env argv n) := by
  induction n with
  | zero => simp [main, runFrom, init, TraceInv]
  | succ n ih => exact traceInv_step env _ ih

theorem main_timeout (env : Env) (argv : List (List Char)) (n : Nat) :
    (main env argv n).timeout = parseTimeout argv := by
  induction n with
  | zero => rfl
  | succ n ih => rw [← ih]; exact step_timeout env _

/-! ## The priority value -/

theorem toInt_of_small (v : Int) (h0 : -2147483648 ≤ v) (h1 : v < 2147483648) : toInt v = v := by
  unfold toInt; omega

theorem prio_value_nat (c d : Nat) (hc : c < 262144) (hd : d < 8192) :
    IOPRIO_PRIO_VALUE (c : Int) (d : Int) = ((8192 * c + d : Nat) : Int) := by
  have hm : _IOPRIO_PRIO_MASK = ((8191 : Nat) : Int) := by decide
  have hs : shl (c : Int) _IOPRIO_CLASS_SHIFT = ((2 ^ 13 * c : Nat) : Int) := by
    unfold shl _IOPRIO_CLASS_SHIFT
    rw [toInt_of_small _ (by norm_num; omega) (by norm_num; omega)]
    push_cast; ring
  have hand : d &&& 8191 = d := by
    have := Nat.and_pow_two_sub_one_eq_mod d 13
    norm_num at this
    rw [this]; exact Nat.mod_eq_of_lt hd
  have hor : 2 ^ 13 * c ||| d = 2 ^ 13 * c + d :=
    (Nat.mul_add_lt_is_or (by norm_num; exact hd) c).symm
  unfold IOPRIO_PRIO_VALUE
  rw [hm, hs]
  show ((((2 ^ 13 * c) ||| (d &&& 8191) : Nat)) : Int) = _
  rw [hand, hor]
  norm_num

/-! ## The first steps of `main` -/

theorem atoi_nonNumeric (s : List Char) (h : nonNumeric s = true) : atoi s = 0 := by
  unfold nonNumeric at h
  unfold atoi strtol10
  cases hs : skipSpace s with
  | nil => simp [toInt]
  | cons c cs =>
    rw [hs] at h
    simp only at h ⊢
    by_cases hm : c = '-'
    · simp only [hm, true_or, if_true] at h ⊢
      cases cs with
      | nil => simp [readDigits, LONG_MIN, toInt]
      | cons d ds =>
        simp only [Bool.not_eq_true'] at h
        simp [readDigits, h, LONG_MIN, toInt]
    · by_cases hp : c = '+'
      · simp only [hm, hp, or_true, if_true, if_false] at h ⊢
        cases cs with
        | nil => simp [readDigits, LONG_MAX, toInt]
        | cons d ds =>
          simp only [Bool.not_eq_true'] at h
          simp [readDigits, h, LONG_MAX, toInt]
      · simp only [hm, hp, or_self, if_false, Bool.not_eq_true'] at h ⊢
        simp [readDigits, h, LONG_MAX, toInt]

theorem main_one (env : Env) (argv : List (List Char)) :
    main env argv 1 =
      { status := Status.running, pc := Pc.nice, timeout := parseTimeout argv,
        disp := Disposition.dfl, now := 0,
        pending := env.inheritedAlarm.map fun r => r + 1,
        nread := 0, trace := (setupCalls env).take 1 } := by
  show step env (main env argv 0) = _
  rw [step_exec env _ rfl (alarmDue_inherited _ env.inheritedAlarm rfl rfl)]
  rfl

theorem main_two (env : Env) (argv : List (List Char)) :
    main env argv 2 =
      { status := Status.running, pc := Pc.ioprio, timeout := parseTimeout argv,
        disp := Disposition.dfl, now := 0,
        pending := env.inheritedAlarm.map fun r => r + 1,
        nread := 0, trace := (setupCalls env).take 2 } := by
  show step env (main env argv 1) = _
  rw [main_one, step_exec env _ rfl (alarmDue_inherited _ env.inheritedAlarm rfl rfl)]
  rfl

theorem main_three (env : Env) (argv : List (List Char)) :
    main env argv 3 =
      { status := Status.running, pc := Pc.alarm, timeout := parseTimeout argv,
        disp := Disposition.dfl, now := 0,
        pending := env.inheritedAlarm.map fun r => r + 1,
        nread := 0, trace := setupCalls env } := by
  show step env (main env argv 2) = _
  rw [main_two, step_exec env _ rfl (alarmDue_inherited _ env.inheritedAlarm rfl rfl)]
  rfl

theorem main_four (env : Env) (argv : List (List Char)) :
    main env argv 4 =
      { status := Status.running, pc := Pc.read, timeout := parseTimeout argv,
        disp := Disposition.dfl, now := 0,
        pending := if parseTimeout argv = 0 then none else some (0 + parseTimeout argv),
        nread := 0, trace := setupCalls env ++ [Effect.alarm (parseTimeout argv)] } := by
  show step env (main env argv 3) = _
  rw [main_three, step_exec env _ rfl (alarmDue_inherited _ env.inheritedAlarm rfl rfl)]
  rfl

theorem parseTimeout_default (argv : List (List Char)) (h : argv.length < 2) :
    parseTimeout argv = 120 := by
  unfold parseTimeout
  rw [if_neg (by omega)]
  decide

theorem parseTimeout_nonNumeric (prog arg : List Char) (rest : List (List Char))
    (h : nonNumeric arg = true) : parseTimeout (prog :: arg :: rest) = 0 := by
  simp [parseTimeout, atoi_nonNumeric arg h, toUnsigned]

/-! ## Counting calls -/

theorem alarmArgs_append (a b : List Effect) : alarmArgs (a ++ b) = alarmArgs a ++ alarmArgs b := by
  induction a with
  | nil => rfl
  | cons e es ih => cases e <;> simp [alarmArgs, ih]

theorem goodReads_append (a b : List Effect) : goodReads (a ++ b) = goodReads a + goodReads b := by
  induction a with
  | nil => simp [goodReads]
  | cons e es ih =>
    cases e <;> simp [goodReads, ih]
    split <;> omega

theorem readCalls_append (a b : List Effect) : readCalls (a ++ b) = readCalls a + readCalls b := by
  induction a with
  | nil => simp [readCalls]
  | cons e es ih =>
    cases e <;> simp [readCalls, ih]
    omega

theorem alarmArgs_goodLoop (T k : Nat) : alarmArgs (goodLoop T k) = List.replicate k T := by
  induction k with
  | zero => rfl
  | succ k ih => simp [goodLoop, alarmArgs, ih, List.replicate_succ]

theorem goodReads_goodLoop (T k : Nat) : goodReads (goodLoop T k) = k := by
  induction k with
  | zero => rfl
  | succ k ih => simp [goodLoop, goodReads, ih]

theorem readCalls_goodLoop (T k : Nat) : readCalls (goodLoop T k) = k := by
  induction k with
  | zero => rfl
  | succ k ih => simp [goodLoop, readCalls, ih]

theorem alternates_goodLoop (T k : Nat) (tl : List Effect) :
    alternates (goodLoop T k ++ tl) = alternates tl := by
  induction k with
  | zero => rfl
  | succ k ih => simp [goodLoop, alternates, ih]

theorem all_goodLoop (T k : Nat) : (goodLoop T k).all (isLoopCall T) = true := by
  induction k with
  | zero => rfl
  | succ k ih => simp only [goodLoop, List.all_cons, ih, isLoopCall]; decide

theorem step_pc_loop (env : Env) (p : Proc)
    (h : p.pc = Pc.alarm ∨ p.pc = Pc.read ∨ p.pc = Pc.ret) :
    (step env p).pc = Pc.alarm ∨ (step env p).pc = Pc.read ∨ (step env p).pc = Pc.ret := by
  unfold step
  cases hs : p.status with
  | exited c => exact h
  | killed s => exact h
  | running =>
    simp only
    split
    · unfold deliver
      split
      · exact h
      · split <;> exact h
    · unfold exec
      rcases h with h | h | h <;> rw [h] <;> simp only
      · simp
      · split
        · split
          · split <;> simp
          · simp [h]
        · simp [h]
      · simp [h]

theorem main_pc_loop (env : Env) (argv : List (List Char)) (n : Nat) :
    (main env argv (n + 3)).pc = Pc.alarm ∨ (main env argv (n + 3)).pc = Pc.read
      ∨ (main env argv (n + 3)).pc = Pc.ret := by
  induction n with
  | zero => left; rw [main_three]
  | succ n ih => exact step_pc_loop env _ ih

/-- The trace of a process that has reached the loop. -/
theorem trace_form (env : Env) (argv : List (List Char)) (n : Nat) :
    ∃ tl, (main env argv (n + 3)).trace
        = setupCalls env ++ (goodLoop (parseTimeout argv) (goodReads (main env argv (n + 3)).trace) ++ tl) ∧
      (((main env argv (n + 3)).pc = Pc.alarm ∧ tl = []) ∨
       ((main env argv (n + 3)).pc = Pc.read ∧ tl = [Effect.alarm (parseTimeout argv)]) ∨
       ((main env argv (n + 3)).pc = Pc.ret ∧ ∃ r, r ≠ 1 ∧
          tl = [Effect.alarm (parseTimeout argv), Effect.read 0 1 r])) := by
  have hinv := traceInv_main env argv (n + 3)
  have ht := main_timeout env argv (n + 3)
  unfold TraceInv at hinv
  rcases main_pc_loop env argv n with hpc | hpc | hpc <;> rw [hpc, ht] at hinv <;>
    simp only at hinv
  · refine ⟨[], ?_, Or.inl ⟨hpc, rfl⟩⟩
    rw [hinv]
    simp [goodReads_append, goodReads_goodLoop, setupCalls, goodReads]
  · refine ⟨_, ?_, Or.inr (Or.inl ⟨hpc, rfl⟩)⟩
    rw [hinv]
    simp [goodReads_append, goodReads_goodLoop, setupCalls, goodReads]
  · obtain ⟨r, hr, _, hinv⟩ := hinv
    refine ⟨_, ?_, Or.inr (Or.inr ⟨hpc, r, hr, rfl⟩)⟩
    rw [hinv]
    simp [goodReads_append, goodReads_goodLoop, setupCalls, goodReads, hr]

theorem step_withIoprioRet (env : Env) (r : Int) (p : Proc) :
    step { env with ioprioRet := r } { p with trace := p.trace.map (withIoprioRet r) }
      = { step env p with trace := (step env p).trace.map (withIoprioRet r) } := by
  unfold step
  cases hs : p.status with
  | exited c => simp [hs]
  | killed s => simp [hs]
  | running =>
    simp only [alarmDue]
    split
    · unfold deliver
      simp only
      split
      · simp [hs]
      · split <;> simp_all
    · unfold exec
      cases hpc : p.pc with
      | read =>
        simp only
        split
        · split <;> simp [hs, withIoprioRet]
        · simp [hs]
      | _ => simp [hs, withIoprioRet]

theorem main_withIoprioRet (env : Env) (r : Int) (argv : List (List Char)) (n : Nat) :
    main { env with ioprioRet := r } argv n
      = { main env argv n with trace := (main env argv n).trace.map (withIoprioRet r) } := by
  induction n with
  | zero => rfl
  | succ n ih =>
    show step _ (main { env with ioprioRet := r } argv n) = _
    rw [ih, step_withIoprioRet]
    rfl

theorem goodLoop_no_output (T k : Nat) :
    ((goodLoop T k).all fun e => !isOutput e) = true := by
  induction k with
  | zero => rfl
  | succ k ih =>
    show (!isOutput (Effect.alarm T) && (!isOutput (Effect.read 0 1 1)
      && (goodLoop T k).all fun e => !isOutput e)) = true
    rw [ih]; rfl

/-! ## Reachable states and stepping -/

theorem genInv_step (env : Env) (p : Proc) (h : GenInv p) : GenInv (step env p) := by
  obtain ⟨h1, h2, h3, h4, h5⟩ := h
  unfold step
  cases hs : p.status with
  | exited c => exact ⟨h1, h2, h3, h4, h5⟩
  | killed s => exact ⟨h1, h2, h3, h4, h5⟩
  | running =>
    simp only
    split
    · rename_i hdue
      have hpc : p.pc = Pc.read ∨ p.pc = Pc.ret := by
        cases hpc : p.pc <;> simp_all
      have hd : p.disp = Disposition.dfl := h1 (by rcases hpc with h | h <;> simp [h])
      rcases deliver_cases env p with hc | hc <;> rw [hc]
      · refine ⟨fun _ => hd, Or.inl hs, ?_, ?_, fun _ _ => rfl⟩
        · intro h; rcases hpc with h2 | h2 <;> simp_all
        · intro h; rcases hpc with h2 | h2 <;> simp_all
      · refine ⟨fun _ => hd, Or.inr (Or.inr rfl), ?_, ?_, fun _ _ => rfl⟩
        · intro h; rcases hpc with h2 | h2 <;> simp_all
        · intro h; rcases hpc with h2 | h2 <;> simp_all
    · rename_i hdue
      have hnd : alarmDue p = false := by simpa using hdue
      unfold exec
      cases hpc : p.pc with
      | sig =>
        have h40 := h4 (Or.inl hpc)
        refine ⟨fun _ => rfl, Or.inl hs, fun _ => ⟨hs, hnd⟩, fun _ => h40, ?_⟩
        intro _ hc
        simp at hc
      | nice =>
        have h40 := h4 (Or.inr (Or.inl hpc))
        refine ⟨fun _ => h1 (by simp [hpc]), Or.inl hs, fun _ => ⟨hs, hnd⟩, fun _ => h40, ?_⟩
        intro _ hc
        simp at hc
      | ioprio =>
        have h40 := h4 (Or.inr (Or.inr hpc))
        refine ⟨fun _ => h1 (by simp [hpc]), Or.inl hs, fun _ => ⟨hs, hnd⟩, ?_, ?_⟩
        · intro hc; simp at hc
        · intro _ hc
          simp only [false_or, reduceCtorEq, true_and] at hc
          exact absurd hc (by rw [h40.2]; simp)
      | alarm =>
        refine ⟨fun _ => h1 (by simp [hpc]), Or.inl hs, ?_, ?_, ?_⟩
        · intro hc; simp at hc
        · intro hc; simp at hc
        · intro h0 _
          simp only at h0
          simp [h0]
      | read =>
        have hd : p.disp = Disposition.dfl := h1 (by simp [hpc])
        have h5r : p.timeout = 0 → p.pending = none := fun h0 => h5 h0 (Or.inl hpc)
        simp only
        split
        · split
          · refine ⟨fun _ => hd, Or.inl hs, fun _ => ⟨hs, hnd⟩, ?_, fun h0 _ => h5r h0⟩
            split <;> simp
          · exact ⟨fun _ => hd, Or.inl hs, by simp [hpc], by simp [hpc], fun h0 _ => h5r h0⟩
        · exact ⟨fun _ => hd, Or.inl hs, by simp [hpc], by simp [hpc], fun h0 _ => h5r h0⟩
      | ret =>
        have hd : p.disp = Disposition.dfl := h1 (by simp [hpc])
        simp only
        exact ⟨fun _ => hd, Or.inr (Or.inl ⟨rfl, rfl⟩), by simp [hpc], by simp [hpc],
          fun h0 _ => h5 h0 (Or.inr (Or.inl hpc))⟩

theorem genInv_main (env : Env) (argv : List (List Char)) (n : Nat) :
    GenInv (main env argv n) := by
  induction n with
  | zero =>
    refine ⟨fun h => absurd rfl h, Or.inl rfl,
      fun _ => ⟨rfl, alarmDue_inherited _ env.inheritedAlarm rfl rfl⟩, fun _ => ⟨rfl, rfl⟩, ?_⟩
    intro _ hc
    simp [main, runFrom, init] at hc
  | succ n ih => exact genInv_step env _ ih

theorem runFrom_add (env : Env) (p : Proc) (m n : Nat) :
    runFrom env p (m + n) = runFrom env (runFrom env p m) n := by
  induction n with
  | zero => rfl
  | succ n ih => show step env (runFrom env p (m + n)) = _; rw [ih]; rfl

theorem main_add (env : Env) (argv : List (List Char)) (m n : Nat) :
    main env argv (m + n) = runFrom env (main env argv m) n :=
  runFrom_add env _ m n

theorem runFrom_of_not_running (env : Env) (p : Proc) (h : p.status ≠ Status.running) (n : Nat) :
    runFrom env p n = p := by
  induction n with
  | zero => rfl
  | succ n ih => show step env (runFrom env p n) = p; rw [ih]; exact step_of_not_running env p h

theorem exec_status (env : Env) (p : Proc) :
    (exec env p).status = p.status ∨ (exec env p).status = Status.exited 1 := by
  unfold exec
  cases hpc : p.pc with
  | read =>
    simp only
    split
    · split <;> simp
    · simp
  | _ => simp

theorem exec_read_tick (env : Env) (p : Proc) (hpc : p.pc = Pc.read)
    (h : ∀ t r, env.stdin p.nread = some (t, r) → p.now < t) :
    exec env p = { p with now := p.now + 1 } := by
  unfold exec
  rw [hpc]
  simp only
  split
  · rename_i t r hst
    have := h t r hst
    rw [if_neg (by omega)]
  · rfl

theorem exec_read_done (env : Env) (p : Proc) (t : Nat) (r : Int) (hpc : p.pc = Pc.read)
    (hst : env.stdin p.nread = some (t, r)) (ht : t ≤ p.now) :
    exec env p = { p with nread := p.nread + 1, trace := p.trace ++ [Effect.read 0 1 r],
                          pc := if r = 1 then Pc.alarm else Pc.ret } := by
  unfold exec
  rw [hpc]
  simp only [hst, if_pos ht]

theorem exec_alarm (env : Env) (p : Proc) (hpc : p.pc = Pc.alarm) :
    exec env p = { p with pending := if p.timeout = 0 then none else some (p.now + p.timeout),
                          trace := p.trace ++ [Effect.alarm p.timeout], pc := Pc.read } := by
  unfold exec
  rw [hpc]

theorem exec_ret (env : Env) (p : Proc) (hpc : p.pc = Pc.ret) :
    exec env p = { p with status := Status.exited 1 } := by
  simp [exec, hpc]

/-- While nothing arrives and no alarm expires, a process blocked in `read` only sees time
pass. -/
theorem runFrom_ticks (env : Env) (p : Proc) (hs : p.status = Status.running)
    (hpc : p.pc = Pc.read) (i : Nat)
    (hd : ∀ d, p.pending = some d → p.now + i ≤ d)
    (hin : ∀ t r, env.stdin p.nread = some (t, r) → p.now + i ≤ t) :
    runFrom env p i = { p with now := p.now + i } := by
  induction i with
  | zero => rfl
  | succ i ih =>
    have ih2 := ih (fun d h => by have := hd d h; omega) (fun t r h => by have := hin t r h; omega)
    show step env (runFrom env p i) = _
    rw [ih2]
    have hnd : alarmDue { p with now := p.now + i } = false := by
      unfold alarmDue
      cases hp : p.pending with
      | none => rfl
      | some d => have := hd d hp; simp; omega
    rw [step_exec env { p with now := p.now + i } hs hnd,
      exec_read_tick env { p with now := p.now + i } hpc]
    · rfl
    · intro t r h
      have := hin t r h
      show p.now + i < t
      omega

/-- With a zero timeout no alarm is ever due: the inherited one is replaced before it
expires, and `alarm(0)` arms none. -/
theorem not_due_of_zero (env : Env) (argv : List (List Char)) (h0 : parseTimeout argv = 0)
    (n : Nat) : alarmDue (main env argv n) = false := by
  have hg := genInv_main env argv n
  have ht : (main env argv n).timeout = 0 := by rw [main_timeout, h0]
  cases hpc : (main env argv n).pc with
  | sig => exact (hg.2.2.1 (Or.inl hpc)).2
  | nice => exact (hg.2.2.1 (Or.inr (Or.inl hpc))).2
  | ioprio => exact (hg.2.2.1 (Or.inr (Or.inr (Or.inl hpc)))).2
  | alarm => exact (hg.2.2.1 (Or.inr (Or.inr (Or.inr hpc)))).2
  | read => exact alarmDue_of_none _ (hg.2.2.2.2 ht (Or.inl hpc))
  | ret => exact alarmDue_of_none _ (hg.2.2.2.2 ht (Or.inr (Or.inl hpc)))

theorem never_killed_of_zero (env : Env) (argv : List (List Char)) (h0 : parseTimeout argv = 0)
    (n : Nat) :
    (main env argv n).status = Status.running ∨ (main env argv n).status = Status.exited 1 := by
  induction n with
  | zero => left; rfl
  | succ n ih =>
    show (step env (main env argv n)).status = _ ∨ (step env (main env argv n)).status = _
    rcases ih with ih | ih
    · rw [step_exec env _ ih (not_due_of_zero env argv h0 n)]
      rcases exec_status env (main env argv n) with h | h
      · left; rw [h, ih]
      · right; exact h
    · rw [step_of_not_running env _ (by rw [ih]; simp)]
      right; exact ih

/-- From its fourth step on, `main` has made its first `alarm` call. -/
theorem main_armed (env : Env) (argv : List (List Char)) (n : Nat) :
    (main env argv (n + 4)).pc = Pc.read ∨ (main env argv (n + 4)).pc = Pc.ret ∨
      ((main env argv (n + 4)).pc = Pc.alarm ∧ 0 < (main env argv (n + 4)).nread) := by
  induction n with
  | zero => left; rw [main_four]
  | succ n ih =>
    show (step env (main env argv (n + 4))).pc = _ ∨ (step env (main env argv (n + 4))).pc = _
      ∨ ((step env (main env argv (n + 4))).pc = _ ∧ 0 < (step env (main env argv (n + 4))).nread)
    generalize main env argv (n + 4) = p at ih
    unfold step
    cases hs : p.status with
    | exited c => exact ih
    | killed s => exact ih
    | running =>
      simp only
      split
      · rcases deliver_cases env p with hc | hc <;> rw [hc] <;> exact ih
      · unfold exec
        rcases ih with h | h | ⟨h, hn⟩
        · rw [h]
          simp only
          split
          · split
            · split
              · right; right; exact ⟨rfl, Nat.succ_pos _⟩
              · right; left; rfl
            · left; rfl
          · left; rfl
        · rw [h]; right; left; rfl
        · rw [h]; left; rfl

theorem pending_none_of_zero (env : Env) (argv : List (List Char))
    (h0 : parseTimeout argv = 0) (n : Nat) : (main env argv (n + 4)).pending = none :=
  (genInv_main env argv (n + 4)).2.2.2.2 (by rw [main_timeout, h0]) (main_armed env argv n)

/-- A process that has returned did so after a read that did not return 1. -/
theorem exited_after_bad_read (env : Env) (argv : List (List Char)) (n : Nat)
    (h : (main env argv n).status = Status.exited 1) :
    readCalls (main env argv n).trace = goodReads (main env argv n).trace + 1 := by
  have hpc : (main env argv n).pc = Pc.ret := by
    rcases (genInv_main env argv n).2.1 with h2 | h2 | h2
    · rw [h] at h2; cases h2
    · exact h2.2
    · rw [h] at h2; cases h2
  have hinv := traceInv_main env argv n
  unfold TraceInv at hinv
  rw [hpc] at hinv
  obtain ⟨r, hr, _, htr⟩ := hinv
  rw [htr]
  simp [readCalls_append, readCalls_goodLoop, goodReads_append, goodReads_goodLoop, setupCalls,
    readCalls, goodReads, hr]

/-- With a zero timeout and no input, the process blocks in its first `read` for ever. -/
theorem quiet_run (env : Env) (argv : List (List Char)) (h0 : parseTimeout argv = 0)
    (hin : ∀ k, env.stdin k = none) (j : Nat) :
    main env argv (4 + j) = { main env argv 4 with now := j } := by
  have h4 := main_four env argv
  rw [h0] at h4
  rw [main_add, h4, runFrom_ticks env
    { status := Status.running, pc := Pc.read, timeout := 0, disp := Disposition.dfl, now := 0,
      pending := if 0 = 0 then none else some (0 + 0), nread := 0,
      trace := setupCalls env ++ [Effect.alarm 0] } rfl rfl j]
  · simp
  · intro d hd
    simp at hd
  · intro t r hst
    rw [hin] at hst
    cases hst

theorem keepInv_step (env : Env) (arrival : Nat → Nat) (p : Proc)
    (hin : env.stdin = bytesAt arrival) (hT : 0 < p.timeout)
    (h0 : arrival 0 < p.timeout) (hk : ∀ k, arrival (k + 1) < arrival k + p.timeout)
    (h : KeepInv arrival p) : KeepInv arrival (step env p) := by
  obtain ⟨hs, h⟩ := h
  cases hpc : p.pc with
  | sig =>
    rw [hpc] at h
    obtain ⟨hd, hn0, hr0⟩ := h
    rw [step_exec env p hs hd]
    unfold exec
    simp only [hpc]
    exact ⟨hs, hd, hn0, hr0⟩
  | nice =>
    rw [hpc] at h
    obtain ⟨hd, hn0, hr0⟩ := h
    rw [step_exec env p hs hd]
    unfold exec
    simp only [hpc]
    exact ⟨hs, hd, hn0, hr0⟩
  | ioprio =>
    rw [hpc] at h
    obtain ⟨hd, hn0, hr0⟩ := h
    rw [step_exec env p hs hd]
    unfold exec
    simp only [hpc]
    refine ⟨hs, hd, ?_⟩
    show arrival p.nread < p.now + p.timeout
    rw [hr0, hn0]
    omega
  | alarm =>
    rw [hpc] at h
    rw [step_exec env p hs h.1, exec_alarm env p hpc, if_neg (by omega)]
    exact ⟨hs, p.now + p.timeout, rfl, by show p.now < p.now + p.timeout; omega, h.2⟩
  | read =>
    rw [hpc] at h
    obtain ⟨d, hd, hnow, harr⟩ := h
    have hnd : alarmDue p = false := by
      unfold alarmDue; rw [hd]; simp; omega
    have hst : env.stdin p.nread = some (arrival p.nread, 1) := by rw [hin]; rfl
    rw [step_exec env p hs hnd]
    by_cases ht : arrival p.nread ≤ p.now
    · rw [exec_read_done env p _ _ hpc hst ht]
      refine ⟨hs, ?_, ?_⟩
      · show alarmDue { p with nread := p.nread + 1, trace := p.trace ++ [Effect.read 0 1 1],
                               pc := Pc.alarm } = false
        simpa [alarmDue] using hnd
      · show arrival (p.nread + 1) < p.now + p.timeout
        have := hk p.nread
        omega
    · rw [exec_read_tick env p hpc (fun t r h => by rw [hst] at h; cases h; omega)]
      refine ⟨hs, ?_⟩
      simp only [hpc]
      exact ⟨d, hd, by show p.now + 1 < d; omega, harr⟩
  | ret => rw [hpc] at h; exact h.elim

/-- A running process that is never killed gets past the expiry of its alarm: either no
alarm is due, or the signal is held back or discarded and the process goes on where it was. -/
theorem settle (env : Env) (p : Proc) (hs : p.status = Status.running)
    (hno : ∀ j, (runFrom env p j).status ≠ Status.killed SIGALRM) :
    ∃ j, alarmDue (runFrom env p j) = false ∧ (runFrom env p j).status = Status.running ∧
      (runFrom env p j).pc = p.pc ∧ (runFrom env p j).nread = p.nread ∧
      (runFrom env p j).now = p.now := by
  cases hd : alarmDue p with
  | false => exact ⟨0, hd, hs, rfl, rfl, rfl⟩
  | true =>
    have h1 : runFrom env p 1 = deliver env p := step_deliver env p hs hd
    rcases deliver_cases env p with hc | hc
    · refine ⟨1, ?_, ?_, ?_, ?_, ?_⟩ <;> rw [h1, hc]
      · rfl
      · exact hs
    · exact absurd (by rw [h1, hc]) (hno 1)

/-- A blocked `read` whose data arrives completes, unless the alarm kills the process first. -/
theorem read_progress (env : Env) (t : Nat) (r : Int) :
    ∀ (d : Nat) (p : Proc), p.status = Status.running → p.pc = Pc.read →
      env.stdin p.nread = some (t, r) → t ≤ p.now + d →
      (∀ j, (runFrom env p j).status ≠ Status.killed SIGALRM) →
      ∃ j, (runFrom env p j).status = Status.running ∧
        (runFrom env p j).pc = (if r = 1 then Pc.alarm else Pc.ret) ∧
        (runFrom env p j).nread = p.nread + 1 := by
  intro d
  induction d with
  | zero =>
    intro p hs hpc hst ht hno
    obtain ⟨j0, hnd, hqs, hqpc, hqn, hqnow⟩ := settle env p hs hno
    refine ⟨j0 + 1, ?_⟩
    show (step env (runFrom env p j0)).status = _ ∧ (step env (runFrom env p j0)).pc = _ ∧
      (step env (runFrom env p j0)).nread = _
    rw [step_exec env _ hqs hnd, exec_read_done env _ t r (by rw [hqpc, hpc])
      (by rw [hqn]; exact hst) (by rw [hqnow]; omega)]
    exact ⟨hqs, rfl, by show (runFrom env p j0).nread + 1 = _; rw [hqn]⟩
  | succ d ih =>
    intro p hs hpc hst ht hno
    obtain ⟨j0, hnd, hqs, hqpc, hqn, hqnow⟩ := settle env p hs hno
    by_cases hle : t ≤ p.now
    · refine ⟨j0 + 1, ?_⟩
      show (step env (runFrom env p j0)).status = _ ∧ (step env (runFrom env p j0)).pc = _ ∧
        (step env (runFrom env p j0)).nread = _
      rw [step_exec env _ hqs hnd, exec_read_done env _ t r (by rw [hqpc, hpc])
        (by rw [hqn]; exact hst) (by rw [hqnow]; exact hle)]
      exact ⟨hqs, rfl, by show (runFrom env p j0).nread + 1 = _; rw [hqn]⟩
    · have hstep : runFrom env p (j0 + 1)
          = { runFrom env p j0 with now := (runFrom env p j0).now + 1 } := by
        show step env (runFrom env p j0) = _
        rw [step_exec env _ hqs hnd, exec_read_tick env _ (by rw [hqpc, hpc])]
        intro t2 r2 h
        rw [hqn, hst] at h
        cases h
        rw [hqnow]
        omega
      obtain ⟨j, hj⟩ := ih (runFrom env p (j0 + 1)) (by rw [hstep]; exact hqs)
        (by rw [hstep]; show (runFrom env p j0).pc = _; rw [hqpc, hpc])
        (by rw [hstep]; show env.stdin (runFrom env p j0).nread = _; rw [hqn]; exact hst)
        (by rw [hstep]; show t ≤ (runFrom env p j0).now + 1 + d; rw [hqnow]; omega)
        (fun j => by rw [← runFrom_add]; exact hno _)
      refine ⟨j0 + 1 + j, ?_⟩
      rw [runFrom_add]
      refine ⟨hj.1, hj.2.1, ?_⟩
      rw [hj.2.2, hstep]
      show (runFrom env p j0).nread + 1 = _
      rw [hqn]

/-- While reads return 1 and no alarm kills the process, `main` gets back to line 32. -/
theorem loop_progress (env : Env) (argv : List (List Char)) (n : Nat)
    (hgood : ∀ k, k < n → ∃ tk, env.stdin k = some (tk, 1))
    (hno : ∀ m, (main env argv m).status ≠ Status.killed SIGALRM) :
    ∀ k, k ≤ n → ∃ m, (main env argv m).pc = Pc.alarm ∧
      (main env argv m).status = Status.running ∧ (main env argv m).nread = k := by
  intro k
  induction k with
  | zero => intro _; exact ⟨3, by rw [main_three], by rw [main_three], by rw [main_three]⟩
  | succ k ih =>
    intro hk
    obtain ⟨m, hpc, hs, hn⟩ := ih (by omega)
    obtain ⟨tk, htk⟩ := hgood k (by omega)
    have hg := genInv_main env argv m
    have hnd : alarmDue (main env argv m) = false := (hg.2.2.1 (by simp [hpc])).2
    have h1 : main env argv (m + 1) = exec env (main env argv m) := step_exec env _ hs hnd
    rw [exec_alarm env _ hpc] at h1
    obtain ⟨j, hj⟩ := read_progress env tk 1 tk (main env argv (m + 1))
      (by rw [h1]; exact hs) (by rw [h1])
      (by rw [h1]; show env.stdin (main env argv m).nread = _; rw [hn]; exact htk)
      (by omega)
      (fun j => by rw [← main_add]; exact hno _)
    rw [← main_add, if_pos rfl] at hj
    refine ⟨m + 1 + j, hj.2.1, hj.1, ?_⟩
    rw [hj.2.2, h1]
    show (main env argv m).nread + 1 = k + 1
    rw [hn]

/-- Every `alarm` call in the trace of `main` has the parsed timeout as its argument. -/
theorem alarmArgs_main (env : Env) (argv : List (List Char)) (n : Nat) :
    alarmArgs (main env argv n).trace
      = List.replicate (alarmCalls (main env argv n).trace) (parseTimeout argv) := by
  rcases n with _ | _ | _ | n
  · rfl
  · rw [main_one]; rfl
  · rw [main_two]; rfl
  · obtain ⟨tl, htr, htl⟩ := trace_form env argv n
    generalize goodReads (main env argv (n + 3)).trace = k at htr
    rw [alarmCalls, htr]
    refine List.eq_replicate_iff.mpr ⟨rfl, fun b hb => ?_⟩
    rw [alarmArgs_append, alarmArgs_append, alarmArgs_goodLoop] at hb
    rcases htl with ⟨_, rfl⟩ | ⟨_, rfl⟩ | ⟨_, r, _, rfl⟩ <;>
      simp [setupCalls, alarmArgs] at hb <;> tauto

/-! ## The claims -/

/-- C1 (amended): for every command-line argument that is the decimal text of a non-negative
integer `N` below `2 ^ 32` (`N < 4294967296`), the timeout that `main` configures is
`N`: line 20 computes `N`, the variable `timeout` holds `N` at every step, and every `alarm`
call in the trace has the argument `N`.  The program name and further arguments are
arbitrary. -/
theorem C1_timeout_of_decimal (prog : List Char) (rest : List (List Char)) (N : Nat)
    (hN : N < 4294967296) (env : Env) (n : Nat) :
    parseTimeout (prog :: decimal N :: rest) = N ∧
    (main env (prog :: decimal N :: rest) n).timeout = N ∧
    alarmArgs (main env (prog :: decimal N :: rest) n).trace
      = List.replicate (alarmCalls (main env (prog :: decimal N :: rest) n).trace) N := by
  have hp : parseTimeout (prog :: decimal N :: rest) = N := by
    simp only [parseTimeout, List.length_cons, List.getD_cons_succ, List.getD_cons_zero, atoi,
      strtol10_decimal, LONG_MAX, toInt, toUnsigned]
    rw [if_pos (by omega)]
    omega
  refine ⟨hp, ?_, ?_⟩
  · rw [main_timeout, hp]
  · rw [alarmArgs_main, hp]

/-- C1, an instance: the largest argument, `4294967295`, after three bytes have been read. -/
theorem C1_timeout_of_decimal_witness :
    decimal 4294967295 = ['4', '2', '9', '4', '9', '6', '7', '2', '9', '5'] ∧
    parseTimeout [['k'], decimal 4294967295] = 4294967295 ∧
    (main demo [['k'], decimal 4294967295] 16).timeout = 4294967295 ∧
    alarmArgs (main demo [['k'], decimal 4294967295] 16).trace
      = List.replicate (alarmCalls (main demo [['k'], decimal 4294967295] 16).trace)
          4294967295 :=
  ⟨by decide, C1_timeout_of_decimal ['k'] [] 4294967295 (by decide) demo 16⟩

/-- C1 as stated fails: the argument `4294967296` is the decimal text of a non-negative
integer, and the configured timeout is 0, not 4294967296 (an `unsigned int` cannot hold
it). -/
theorem C1_timeout_wraps :
    decimal 4294967296 = ['4', '2', '9', '4', '9', '6', '7', '2', '9', '6'] ∧
    parseTimeout [['k'], decimal 4294967296] = 0 ∧
    parseTimeout [['k'], decimal 4294967296] ≠ 4294967296 ∧
    (main demo [['k'], decimal 4294967296] 4).trace = setupCalls demo ++ [Effect.alarm 0] := by
  decide

/-- C2: when `argc < 2` the configured timeout is 120, and when `argv[1]` is present but
non-numeric the configured timeout is 0.  In both cases `main` makes its three set-up calls and
its first `alarm` call and is then running, blocked in the first `read`, with nothing written:
it neither reports an error nor stops before the read loop. -/
theorem C2_default_and_non_numeric (env : Env) (argv : List (List Char))
    (h : argv.length < 2 ∨ ∃ arg, argv.get? 1 = some arg ∧ nonNumeric arg = true) :
    parseTimeout argv = (if argv.length < 2 then 120 else 0) ∧
    main env argv 4 =
      { status := Status.running, pc := Pc.read,
        timeout := if argv.length < 2 then 120 else 0,
        disp := Disposition.dfl, now := 0,
        pending := if argv.length < 2 then some 120 else none,
        nread := 0,
        trace := setupCalls env ++ [Effect.alarm (if argv.length < 2 then 120 else 0)] } ∧
    ((main env argv 4).trace.all fun e => !isOutput e) = true := by
  have hp : parseTimeout argv = (if argv.length < 2 then 120 else 0) := by
    rcases h with h | ⟨arg, harg, hn⟩
    · rw [if_pos h]; exact parseTimeout_default argv h
    · match argv, harg with
      | prog :: a :: rest, harg =>
        simp only [List.get?_cons_succ, List.get?_cons_zero, Option.some.injEq] at harg
        subst harg
        rw [parseTimeout_nonNumeric prog a rest hn, if_neg (by simp)]
  refine ⟨hp, ?_, ?_⟩
  · rw [main_four, hp]
    by_cases hl : argv.length < 2 <;> simp [hl]
  · rw [main_four]
    simp [setupCalls, isOutput]

/-- C2, two instances: no argument, and the argument `-x`. -/
theorem C2_default_and_non_numeric_witness :
    (parseTimeout [['k']] = 120 ∧ (main quiet [['k']] 4).pc = Pc.read ∧
      (main quiet [['k']] 4).status = Status.running ∧
      (main quiet [['k']] 4).pending = some 120) ∧
    (nonNumeric ['-', 'x'] = true ∧
      parseTimeout [['k'], ['-', 'x']] = 0 ∧ (main quiet [['k'], ['-', 'x']] 4).pc = Pc.read ∧
      (main quiet [['k'], ['-', 'x']] 4).status = Status.running ∧
      (main quiet [['k'], ['-', 'x']] 4).pending = none) := by
  have h1 := C2_default_and_non_numeric quiet [['k']] (Or.inl (by decide))
  have h2 := C2_default_and_non_numeric quiet [['k'], ['-', 'x']]
    (Or.inr ⟨['-', 'x'], rfl, by decide⟩)
  refine ⟨⟨h1.1, ?_, ?_, ?_⟩, ⟨by decide, h2.1, ?_, ?_, ?_⟩⟩
  · rw [h1.2.1]
  · rw [h1.2.1]
  · rw [h1.2.1]; rfl
  · rw [h2.2.1]
  · rw [h2.2.1]
  · rw [h2.2.1]; rfl

/-- C3: for every timeout and every input on which no alarm fires (the process is never
killed), if the first `n` reads return 1 and read `n + 1` returns something else, then `main`
reaches a step `m` at which it has returned with exit status 1, having completed exactly
`n + 1` reads of which `n` returned 1, and it stays in that state at every later step (it
reads no more); and at every step `i` the process is either still running or has returned 1,
never another status. -/
theorem C3_exit_status (env : Env) (argv : List (List Char)) (n t : Nat) (r : Int)
    (hgood : ∀ k, k < n → ∃ tk, env.stdin k = some (tk, 1))
    (hlast : env.stdin n = some (t, r)) (hr : r ≠ 1)
    (hno : ∀ m, (main env argv m).status ≠ Status.killed SIGALRM)
    (i : Nat) :
    (∃ m, (main env argv m).status = Status.exited 1 ∧
      readCalls (main env argv m).trace = n + 1 ∧
      goodReads (main env argv m).trace = n ∧
      (main env argv m).nread = n + 1 ∧
      ∀ j, main env argv (m + j) = main env argv m) ∧
    ((main env argv i).status = Status.running ∨ (main env argv i).status = Status.exited 1) := by
  constructor
  · obtain ⟨m, hpc, hs, hn⟩ := loop_progress env argv n hgood hno n (le_refl n)
    have hg := genInv_main env argv m
    have hnd : alarmDue (main env argv m) = false := (hg.2.2.1 (by simp [hpc])).2
    have h1 : main env argv (m + 1) = exec env (main env argv m) := step_exec env _ hs hnd
    rw [exec_alarm env _ hpc] at h1
    obtain ⟨j, hj⟩ := read_progress env t r t (main env argv (m + 1))
      (by rw [h1]; exact hs) (by rw [h1])
      (by rw [h1]; show env.stdin (main env argv m).nread = _; rw [hn]; exact hlast)
      (by omega)
      (fun j => by rw [← main_add]; exact hno _)
    rw [← main_add, if_neg hr] at hj
    obtain ⟨hs1, hpc1, hn1⟩ := hj
    have hn1b : (main env argv (m + 1 + j)).nread = n + 1 := by
      rw [hn1, h1]; show (main env argv m).nread + 1 = n + 1; rw [hn]
    obtain ⟨j2, hnd2, hs2, hpc2, hn2, _⟩ := settle env (main env argv (m + 1 + j)) hs1
      (fun j3 => by rw [← main_add]; exact hno _)
    rw [← main_add] at hnd2 hs2 hpc2 hn2
    rw [hpc1] at hpc2
    rw [hn1b] at hn2
    have hfin : main env argv (m + 1 + j + j2 + 1)
        = { main env argv (m + 1 + j + j2) with status := Status.exited 1 } := by
      show step env (main env argv (m + 1 + j + j2)) = _
      rw [step_exec env _ hs2 hnd2, exec_ret env _ hpc2]
    have hinv := traceInv_main env argv (m + 1 + j + j2)
    unfold TraceInv at hinv
    rw [hpc2] at hinv
    obtain ⟨r2, hr2, _, htr⟩ := hinv
    refine ⟨m + 1 + j + j2 + 1, by rw [hfin], ?_, ?_, by rw [hfin]; exact hn2, fun j3 => ?_⟩
    · rw [hfin]
      show readCalls (main env argv (m + 1 + j + j2)).trace = n + 1
      rw [htr, hn2]
      simp [readCalls_append, readCalls_goodLoop, setupCalls, readCalls]
    · rw [hfin]
      show goodReads (main env argv (m + 1 + j + j2)).trace = n
      rw [htr, hn2]
      simp [goodReads_append, goodReads_goodLoop, setupCalls, goodReads, hr2]
    · rw [main_add, runFrom_of_not_running]
      rw [hfin]
      simp
  · rcases (genInv_main env argv i).2.1 with h | h | h
    · exact Or.inl h
    · exact Or.inr h.1
    · exact absurd h (hno i)

/-- C3, an instance: default timeout, one byte at second 0, end of stream at second 2. -/
theorem C3_exit_status_witness :
    (∃ m, (main twoReads [['k']] m).status = Status.exited 1 ∧
      readCalls (main twoReads [['k']] m).trace = 1 + 1 ∧
      goodReads (main twoReads [['k']] m).trace = 1 ∧
      (main twoReads [['k']] m).nread = 1 + 1 ∧
      ∀ j, main twoReads [['k']] (m + j) = main twoReads [['k']] m) ∧
    ((main twoReads [['k']] 5).status = Status.running ∨
      (main twoReads [['k']] 5).status = Status.exited 1) :=
  C3_exit_status twoReads [['k']] 1 2 0
    (fun k hk => ⟨0, by
      have : k = 0 := by omega
      subst this
      rfl⟩)
    rfl (by decide)
    (fun m => by
      rcases Nat.lt_or_ge m 10 with h | h
      · interval_cases m <;> decide
      · obtain ⟨i, rfl⟩ : ∃ i, m = 10 + i := ⟨m - 10, by omega⟩
        rw [main_add, runFrom_of_not_running _ _ (by decide)]
        decide)
    5

/-- C4: keep-alive.  For every timeout greater than 0 and every input on which every read
returns a byte, the first byte arriving less than `timeout` seconds after the start and each
later byte less than `timeout` seconds after the previous one, the process is running after
every number `n` of steps of arm-alarm, read-byte and time-passes; in particular it is never
in the state killed by `SIGALRM`. -/
theorem C4_keep_alive (env : Env) (argv : List (List Char)) (arrival : Nat → Nat)
    (hT : 0 < parseTimeout argv)
    (hin : env.stdin = bytesAt arrival)
    (h0 : arrival 0 < parseTimeout argv)
    (hk : ∀ k, arrival (k + 1) < arrival k + parseTimeout argv)
    (n : Nat) :
    (main env argv n).status = Status.running ∧
    (main env argv n).status ≠ Status.killed SIGALRM := by
  have hinv : KeepInv arrival (main env argv n) := by
    induction n with
    | zero => exact ⟨rfl, alarmDue_inherited _ env.inheritedAlarm rfl rfl, rfl, rfl⟩
    | succ n ih =>
      have ht := main_timeout env argv n
      exact keepInv_step env arrival (main env argv n) hin (by rw [ht]; exact hT)
        (by rw [ht]; exact h0) (by rw [ht]; exact hk) ih
  exact ⟨hinv.1, by rw [hinv.1]; simp⟩

/-- C4, the instance of the specification: timeout 5, bytes at seconds 0, 3, 6 (and every
three seconds after), three bytes read and still alive at second 8. -/
theorem C4_keep_alive_witness :
    parseTimeout [['k'], ['5']] = 5 ∧
    (main every3 [['k'], ['5']] 18).now = 8 ∧
    (main every3 [['k'], ['5']] 18).nread = 3 ∧
    (main every3 [['k'], ['5']] 18).status = Status.running ∧
    (main every3 [['k'], ['5']] 18).status ≠ Status.killed SIGALRM := by
  have h := C4_keep_alive every3 [['k'], ['5']] (fun k => 3 * k) (by decide) rfl (by decide)
    (fun k => by
      have h5 : parseTimeout [['k'], ['5']] = 5 := by decide
      rw [h5]
      show 3 * (k + 1) < 3 * k + 5
      omega) 18
  exact ⟨by decide, by decide, by decide, h.1, h.2⟩

/-- C6 (amended): when the argument is present but fails to parse, the timeout is zero and
the first call is `alarm(0)`, which arms no timer.  From that call on (step `n + 4`) no alarm
is pending.  At every step `n` the process is running or has returned 1 after a read that did
not return 1; it is never killed by a signal.  It keeps waiting for input: while it is blocked
in `read` and the next result is not there for `j` more seconds, only the clock moves; a
result that is there is consumed, and the loop goes on exactly when it is 1; after a byte the
next call is `alarm(0)` again; and once out of the loop it returns 1. -/
theorem C6_zero_timeout_never_fires (env : Env) (prog arg : List Char) (rest : List (List Char))
    (h : nonNumeric arg = true) (n j t : Nat) (r : Int) :
    parseTimeout (prog :: arg :: rest) = 0 ∧
    (main env (prog :: arg :: rest) 4).trace = setupCalls env ++ [Effect.alarm 0] ∧
    (main env (prog :: arg :: rest) (n + 4)).pending = none ∧
    ((main env (prog :: arg :: rest) n).status = Status.running ∨
      ((main env (prog :: arg :: rest) n).status = Status.exited 1 ∧
        readCalls (main env (prog :: arg :: rest) n).trace
          = goodReads (main env (prog :: arg :: rest) n).trace + 1)) ∧
    ((main env (prog :: arg :: rest) (n + 4)).status = Status.running →
      (main env (prog :: arg :: rest) (n + 4)).pc = Pc.read →
      (∀ t2 r2, env.stdin (main env (prog :: arg :: rest) (n + 4)).nread = some (t2, r2) →
        (main env (prog :: arg :: rest) (n + 4)).now + j ≤ t2) →
      main env (prog :: arg :: rest) (n + 4 + j) =
        { main env (prog :: arg :: rest) (n + 4) with
          now := (main env (prog :: arg :: rest) (n + 4)).now + j }) ∧
    ((main env (prog :: arg :: rest) (n + 4)).status = Status.running →
      (main env (prog :: arg :: rest) (n + 4)).pc = Pc.read →
      env.stdin (main env (prog :: arg :: rest) (n + 4)).nread = some (t, r) →
      t ≤ (main env (prog :: arg :: rest) (n + 4)).now →
      main env (prog :: arg :: rest) (n + 4 + 1) =
        { main env (prog :: arg :: rest) (n + 4) with
          nread := (main env (prog :: arg :: rest) (n + 4)).nread + 1,
          trace := (main env (prog :: arg :: rest) (n + 4)).trace ++ [Effect.read 0 1 r],
          pc := if r = 1 then Pc.alarm else Pc.ret }) ∧
    ((main env (prog :: arg :: rest) (n + 4)).status = Status.running →
      (main env (prog :: arg :: rest) (n + 4)).pc = Pc.alarm →
      main env (prog :: arg :: rest) (n + 4 + 1) =
        { main env (prog :: arg :: rest) (n + 4) with
          pending := none,
          trace := (main env (prog :: arg :: rest) (n + 4)).trace ++ [Effect.alarm 0],
          pc := Pc.read }) ∧
    ((main env (prog :: arg :: rest) (n + 4)).status = Status.running →
      (main env (prog :: arg :: rest) (n + 4)).pc = Pc.ret →
      main env (prog :: arg :: rest) (n + 4 + 1) =
        { main env (prog :: arg :: rest) (n + 4) with status := Status.exited 1 }) := by
  have h0 := parseTimeout_nonNumeric prog arg rest h
  have hnd := not_due_of_zero env _ h0 (n + 4)
  have hpn := pending_none_of_zero env _ h0 n
  have htm := main_timeout env (prog :: arg :: rest) (n + 4)
  rw [h0] at htm
  refine ⟨h0, by rw [main_four, h0], hpn, ?_, ?_, ?_, ?_, ?_⟩
  · rcases never_killed_of_zero env _ h0 n with hs | hs
    · exact Or.inl hs
    · exact Or.inr ⟨hs, exited_after_bad_read env _ n hs⟩
  · intro hs hpc hin
    rw [main_add, runFrom_ticks env _ hs hpc j (fun d hd => by rw [hpn] at hd; cases hd) hin]
  · intro hs hpc hst ht
    show step env (main env (prog :: arg :: rest) (n + 4)) = _
    rw [step_exec env _ hs hnd, exec_read_done env _ t r hpc hst ht]
  · intro hs hpc
    show step env (main env (prog :: arg :: rest) (n + 4)) = _
    rw [step_exec env _ hs hnd, exec_alarm env _ hpc]
    simp [htm]
  · intro hs hpc
    show step env (main env (prog :: arg :: rest) (n + 4)) = _
    rw [step_exec env _ hs hnd, exec_ret env _ hpc]

/-- C6, instances with the argument `abc`.  With bytes at seconds 0, 3 and 6 and an inherited
alarm: no alarm is pending at step 4; the process waits from second 0 to second 3 for the
second byte (steps 6 to 9), reads it at step 10 and calls `alarm(0)` again at step 11.  With
one byte and then end of stream, it returns 1 at step 10, after two reads of which one
returned 1. -/
theorem C6_zero_timeout_never_fires_witness :
    nonNumeric ['a', 'b', 'c'] = true ∧
    parseTimeout [['k'], ['a', 'b', 'c']] = 0 ∧
    (main demo [['k'], ['a', 'b', 'c']] 4).trace = setupCalls demo ++ [Effect.alarm 0] ∧
    (main demo [['k'], ['a', 'b', 'c']] 3).pending = some 2 ∧
    (main demo [['k'], ['a', 'b', 'c']] (0 + 4)).pending = none ∧
    main demo [['k'], ['a', 'b', 'c']] (2 + 4 + 3) =
      { main demo [['k'], ['a', 'b', 'c']] (2 + 4) with
        now := (main demo [['k'], ['a', 'b', 'c']] (2 + 4)).now + 3 } ∧
    main demo [['k'], ['a', 'b', 'c']] (5 + 4 + 1) =
      { main demo [['k'], ['a', 'b', 'c']] (5 + 4) with
        nread := (main demo [['k'], ['a', 'b', 'c']] (5 + 4)).nread + 1,
        trace := (main demo [['k'], ['a', 'b', 'c']] (5 + 4)).trace ++ [Effect.read 0 1 1],
        pc := if (1 : Int) = 1 then Pc.alarm else Pc.ret } ∧
    main demo [['k'], ['a', 'b', 'c']] (6 + 4 + 1) =
      { main demo [['k'], ['a', 'b', 'c']] (6 + 4) with
        pending := none,
        trace := (main demo [['k'], ['a', 'b', 'c']] (6 + 4)).trace ++ [Effect.alarm 0],
        pc := Pc.read } ∧
    (main twoReads [['k'], ['a', 'b', 'c']] 10).status = Status.exited 1 ∧
    readCalls (main twoReads [['k'], ['a', 'b', 'c']] 10).trace = 2 ∧
    goodReads (main twoReads [['k'], ['a', 'b', 'c']] 10).trace = 1 := by
  have w0 := C6_zero_timeout_never_fires demo ['k'] ['a', 'b', 'c'] [] (by decide) 0 0 0 0
  have w2 := C6_zero_timeout_never_fires demo ['k'] ['a', 'b', 'c'] [] (by decide) 2 3 0 0
  have w5 := C6_zero_timeout_never_fires demo ['k'] ['a', 'b', 'c'] [] (by decide) 5 0 3 1
  have w6 := C6_zero_timeout_never_fires demo ['k'] ['a', 'b', 'c'] [] (by decide) 6 0 0 0
  refine ⟨by decide, w0.1, w0.2.1, by decide, w0.2.2.1, ?_, ?_, ?_, by decide, by decide,
    by decide⟩
  · refine w2.2.2.2.2.1 (by decide) (by decide) (fun t2 r2 hst => ?_)
    have e : demo.stdin (main demo [['k'], ['a', 'b', 'c']] (2 + 4)).nread = some (3, 1) := by
      decide
    rw [e] at hst
    cases hst
    decide
  · exact w5.2.2.2.2.2.1 (by decide) (by decide) (by decide) (by decide)
  · exact w6.2.2.2.2.2.2.1 (by decide) (by decide)

/-- C6 as stated fails: with the argument `abc` the timeout is 0, and with no input the
process is not terminated at once; after any number of seconds it is still running, blocked in
`read`, with no alarm pending. -/
theorem C6_no_immediate_alarm :
    nonNumeric ['a', 'b', 'c'] = true ∧ parseTimeout [['k'], ['a', 'b', 'c']] = 0 ∧
    ∀ seconds : Nat,
      (main quiet [['k'], ['a', 'b', 'c']] (4 + seconds)).status = Status.running ∧
      (main quiet [['k'], ['a', 'b', 'c']] (4 + seconds)).pc = Pc.read ∧
      (main quiet [['k'], ['a', 'b', 'c']] (4 + seconds)).now = seconds ∧
      (main quiet [['k'], ['a', 'b', 'c']] (4 + seconds)).pending = none := by
  refine ⟨by decide, by decide, fun j => ?_⟩
  rw [quiet_run quiet _ (by decide) (fun _ => rfl) j]
  exact ⟨rfl, rfl, rfl, rfl⟩

/-- C7: loop invariant.  After every number `n` of steps of every run: the variable
`timeout` still holds the value parsed at start-up; every `alarm` call in the trace has that
value as its argument; no `alarm` call is among the first three calls; the calls after them
alternate `alarm`, `read`, `alarm`, `read`, starting with an `alarm`, so an alarm is armed
immediately before each read and nowhere else; the number of `alarm` calls is the number of
reads that returned 1, plus one once the alarm of the current round is armed (the process is
in `read` or has left the loop); and arming replaces whatever alarm was pending, so at most
one alarm is pending (the state holds at most one deadline). -/
theorem C7_loop_invariant (env : Env) (argv : List (List Char)) (n : Nat) (q : Proc) :
    (main env argv n).timeout = parseTimeout argv ∧
    alarmArgs (main env argv n).trace
      = List.replicate (alarmCalls (main env argv n).trace) (parseTimeout argv) ∧
    alarmCalls ((main env argv n).trace.take 3) = 0 ∧
    alternates ((main env argv n).trace.drop 3) = true ∧
    alarmCalls (main env argv n).trace
      = goodReads (main env argv n).trace
        + (if (main env argv n).pc = Pc.read ∨ (main env argv n).pc = Pc.ret then 1 else 0) ∧
    (exec env { q with pc := Pc.alarm }).pending
      = (if q.timeout = 0 then none else some (q.now + q.timeout)) := by
  refine ⟨main_timeout env argv n, alarmArgs_main env argv n, ?_, ?_, ?_, rfl⟩
  · rcases n with _ | _ | _ | n
    · rfl
    · rw [main_one]; rfl
    · rw [main_two]; rfl
    · obtain ⟨tl, htr, _⟩ := trace_form env argv n
      rw [htr]
      rfl
  · rcases n with _ | _ | _ | n
    · rfl
    · rw [main_one]; rfl
    · rw [main_two]; rfl
    · obtain ⟨tl, htr, htl⟩ := trace_form env argv n
      generalize goodReads (main env argv (n + 3)).trace = k at htr
      rw [htr]
      have hd : (setupCalls env ++ (goodLoop (parseTimeout argv) k ++ tl)).drop 3
          = goodLoop (parseTimeout argv) k ++ tl := rfl
      rw [hd, alternates_goodLoop]
      rcases htl with ⟨_, rfl⟩ | ⟨_, rfl⟩ | ⟨_, r, _, rfl⟩ <;> rfl
  · rcases n with _ | _ | _ | n
    · rfl
    · rw [main_one]; rfl
    · rw [main_two]; rfl
    · obtain ⟨tl, htr, htl⟩ := trace_form env argv n
      have hk : alarmCalls (main env argv (n + 3)).trace
          = goodReads (main env argv (n + 3)).trace + (alarmArgs tl).length := by
        rw [alarmCalls]
        conv_lhs => rw [htr]
        simp [alarmArgs_append, alarmArgs_goodLoop, setupCalls, alarmArgs]
      rw [hk]
      rcases htl with ⟨hpc, rfl⟩ | ⟨hpc, rfl⟩ | ⟨hpc, r, _, rfl⟩ <;> simp [hpc, alarmArgs]

/-- C8: for every argument and every input, after every number `n` of steps the first three
calls of the trace are the first `n` of: one reset of the `SIGALRM` disposition to the
default, one `nice(40)`, one `ioprio_set`; every later call is `alarm(timeout)` or a one-byte
read of descriptor 0; no call produces output; and running with another result `r` of
`ioprio_set` gives the same state, apart from that result as recorded in the trace. -/
theorem C8_effect_trace (env : Env) (argv : List (List Char)) (n : Nat) (r : Int) :
    (main env argv n).trace.take 3 = (setupCalls env).take n ∧
    setupCalls env
      = [Effect.signal SIGALRM Disposition.dfl, Effect.nice 40 env.niceRet,
         Effect.ioprio_set IOPRIO_WHO_PROCESS 0 (IOPRIO_PRIO_VALUE IOPRIO_CLASS_IDLE 0)
           env.ioprioRet] ∧
    ((main env argv n).trace.drop 3).all (isLoopCall (parseTimeout argv)) = true ∧
    ((main env argv n).trace.all fun e => !isOutput e) = true ∧
    main { env with ioprioRet := r } argv n
      = { main env argv n with trace := (main env argv n).trace.map (withIoprioRet r) } := by
  refine ⟨?_, rfl, ?_, ?_, main_withIoprioRet env r argv n⟩
  · rcases n with _ | _ | _ | n
    · rfl
    · rw [main_one]; rfl
    · rw [main_two]; rfl
    · obtain ⟨tl, htr, _⟩ := trace_form env argv n
      rw [htr]
      simp [setupCalls]
  · rcases n with _ | _ | _ | n
    · rfl
    · rw [main_one]; rfl
    · rw [main_two]; rfl
    · obtain ⟨tl, htr, htl⟩ := trace_form env argv n
      generalize goodReads (main env argv (n + 3)).trace = k at htr
      rw [htr]
      have hd : (setupCalls env ++ (goodLoop (parseTimeout argv) k ++ tl)).drop 3
          = goodLoop (parseTimeout argv) k ++ tl := rfl
      rw [hd, List.all_append, all_goodLoop]
      rcases htl with ⟨_, rfl⟩ | ⟨_, rfl⟩ | ⟨_, r, _, rfl⟩ <;> simp [isLoopCall]
  · rcases n with _ | _ | _ | n
    · rfl
    · rw [main_one]; rfl
    · rw [main_two]; rfl
    · obtain ⟨tl, htr, htl⟩ := trace_form env argv n
      generalize goodReads (main env argv (n + 3)).trace = k at htr
      rw [htr]
      rw [List.all_append, List.all_append, goodLoop_no_output]
      rcases htl with ⟨_, rfl⟩ | ⟨_, rfl⟩ | ⟨_, r, _, rfl⟩ <;> simp [isOutput, setupCalls]

/-- C9 (amended): the value `main` passes to `ioprio_set`,
`IOPRIO_PRIO_VALUE(IOPRIO_CLASS_IDLE, 0)`, is 24576, which is 3 shifted left by 13; its class
field (value `>> 13`) is 3 and its data field (value `& 8191`) is 0; the call is made with
target `IOPRIO_WHO_PROCESS = 1` and `who = 0`.  For every class `c` with `0 ≤ c < 262144`
(so that `c << 13` fits in an `int`) and every data `d` with `0 ≤ d < 8192`,
`IOPRIO_PRIO_VALUE(c, d) >> 13 = c` and `IOPRIO_PRIO_VALUE(c, d) & 8191 = d`. -/
theorem C9_prio_value (c d : Int) (hc0 : 0 ≤ c) (hc : c < 262144) (hd0 : 0 ≤ d) (hd : d < 8192)
    (env : Env) (argv : List (List Char)) :
    IOPRIO_PRIO_VALUE IOPRIO_CLASS_IDLE 0 = 24576 ∧ shl 3 13 = 24576 ∧
    Int.shiftRight (IOPRIO_PRIO_VALUE IOPRIO_CLASS_IDLE 0) 13 = 3 ∧
    Int.land (IOPRIO_PRIO_VALUE IOPRIO_CLASS_IDLE 0) 8191 = 0 ∧
    IOPRIO_WHO_PROCESS = 1 ∧
    (main env argv 3).trace.get? 2 = some (Effect.ioprio_set 1 0 24576 env.ioprioRet) ∧
    Int.shiftRight (IOPRIO_PRIO_VALUE c d) 13 = c ∧
    Int.land (IOPRIO_PRIO_VALUE c d) 8191 = d := by
  refine ⟨by decide, by decide, by decide, by decide, rfl, by rw [main_three]; rfl, ?_⟩
  lift c to ℕ using hc0
  lift d to ℕ using hd0
  have hc2 : c < 262144 := by exact_mod_cast hc
  have hd2 : d < 8192 := by exact_mod_cast hd
  rw [prio_value_nat c d hc2 hd2]
  constructor
  · show (((8192 * c + d) >>> 13 : Nat) : Int) = _
    rw [Nat.shiftRight_eq_div_pow]
    congr 1
    omega
  · show (((8192 * c + d) &&& 8191 : Nat) : Int) = _
    have := Nat.and_pow_two_sub_one_eq_mod (8192 * c + d) 13
    norm_num at this
    rw [this]
    congr 1
    omega

/-- C9, an instance: class 7 and data 4095. -/
theorem C9_prio_value_witness :
    IOPRIO_PRIO_VALUE 7 4095 = 61439 ∧
    Int.shiftRight (IOPRIO_PRIO_VALUE 7 4095) 13 = 7 ∧
    Int.land (IOPRIO_PRIO_VALUE 7 4095) 8191 = 4095 :=
  ⟨by decide,
    (C9_prio_value 7 4095 (by decide) (by decide) (by decide) (by decide) quiet []).2.2.2.2.2.2⟩

/-- C9 as stated fails for large classes: for the class 524288 the shift leaves the 32 bits
of an `int`, the value is 0 and its class field is 0, not 524288. -/
theorem C9_class_overflow :
    (0 : Int) ≤ 524288 ∧ IOPRIO_PRIO_VALUE 524288 0 = 0 ∧
    Int.shiftRight (IOPRIO_PRIO_VALUE 524288 0) 13 ≠ 524288 := by decide

/-- C10: for every argument that is the decimal text of a negative integer `-M` with
`1 ≤ M ≤ 2 ^ 31` the configured timeout is `2 ^ 32 - M`, not 0 and not 120; the argument `-1`
configures 4294967295; and only `argv[1]` is consulted: further arguments `more` never change
the timeout. -/
theorem C10_negative_argument (prog : List Char) (rest : List (List Char)) (M : Nat)
    (h1 : 1 ≤ M) (h2 : M ≤ 2147483648) (arg : List Char) (more : List (List Char)) :
    parseTimeout (prog :: ('-' :: decimal M) :: rest) = 4294967296 - M ∧
    parseTimeout (prog :: ('-' :: decimal M) :: rest) ≠ 0 ∧
    parseTimeout (prog :: ('-' :: decimal M) :: rest) ≠ 120 ∧
    parseTimeout [prog, ['-', '1']] = 4294967295 ∧
    parseTimeout (prog :: arg :: more) = parseTimeout [prog, arg] := by
  have hp : parseTimeout (prog :: ('-' :: decimal M) :: rest) = 4294967296 - M := by
    simp only [parseTimeout, List.length_cons, List.getD_cons_succ, List.getD_cons_zero, atoi,
      strtol10_neg_decimal, LONG_MIN, toInt, toUnsigned]
    rw [if_pos (by omega)]
    omega
  refine ⟨hp, by rw [hp]; omega, by rw [hp]; omega, ?_, ?_⟩
  · have h : toUnsigned (atoi ['-', '1']) = 4294967295 := by decide
    simpa [parseTimeout] using h
  · simp [parseTimeout]

/-- C10, an instance: the argument `-2147483648`, followed by a further argument. -/
theorem C10_negative_argument_witness :
    '-' :: decimal 2147483648 = ['-', '2', '1', '4', '7', '4', '8', '3', '6', '4', '8'] ∧
    parseTimeout [['k'], '-' :: decimal 2147483648, ['9']] = 4294967296 - 2147483648 ∧
    parseTimeout [['k'], '-' :: decimal 2147483648, ['9']] ≠ 0 ∧
    parseTimeout [['k'], '-' :: decimal 2147483648, ['9']] ≠ 120 ∧
    parseTimeout [['k'], ['-', '1']] = 4294967295 ∧
    parseTimeout [['k'], ['7'], ['9'], ['x']] = parseTimeout [['k'], ['7']] :=
  ⟨by decide,
    C10_negative_argument ['k'] [['9']] 2147483648 (by decide) (by decide) ['7'] [['9'], ['x']]⟩

end TerminalKeepalive
